import Mathlib

/-!
Verification of the nofx multi-exchange trading gateway.

Shallow embedding of the Go sources under `trader/`:
* `auto_trader.go`  — `sortDecisionsByPriority`, `HyperliquidTrader`
* `aster_trader.go` — precision rounding, signing/retry transport, `AsterTrader`
* `interface.go`    — `FuturesTrader` (Binance backend)

Go `float64` values are modelled as exact rationals (`ℚ`); machine floats
only differ from this model by rounding error, and every concrete input we
evaluate keeps a margin far larger than that error.  Network effects are
modelled by passing the data a call would fetch (the parsed response, the
open-order list, the cached positions) as an explicit argument, and by
returning the list of remote calls a function issues.
-/

namespace NoFx

/-! ### DecisionSequencer (`auto_trader.go`, `sortDecisionsByPriority`)

`decision.Decision` carries more fields (leverage, sizes, prices) but the
sequencer reads only `Action`; we keep `Symbol` to distinguish decisions. -/

structure Decision where
  Symbol : String
  Action : String
deriving DecidableEq

/-- `getActionPriority` closure inside `sortDecisionsByPriority`
(auto_trader.go:1008-1019): close=1, open=2, hold/wait=3, unknown=999. -/
def getActionPriority (action : String) : ℕ :=
  if action = "close_long" ∨ action = "close_short" then 1
  else if action = "open_long" ∨ action = "open_short" then 2
  else if action = "hold" ∨ action = "wait" then 3
  else 999

/-- Inner loop of the exchange sort (auto_trader.go:1027-1031) for a fixed
outer index `i`: `x` is the current `sorted[i]`; walking `sorted[i+1..]`,
whenever `prio sorted[i] > prio sorted[j]` the two entries swap.  Returns
the final `sorted[i]` together with the updated tail `sorted[i+1..]`. -/
def selectPass (x : Decision) : List Decision → Decision × List Decision
  | [] => (x, [])
  | y :: ys =>
    if getActionPriority y.Action < getActionPriority x.Action then
      -- swap: sorted[j] becomes the old sorted[i], the scan continues with y
      let p := selectPass y ys
      (p.1, x :: p.2)
    else
      let p := selectPass x ys
      (p.1, y :: p.2)

theorem selectPass_snd_length (x : Decision) (xs : List Decision) :
    (selectPass x xs).2.length = xs.length := by
  induction xs generalizing x with
  | nil => rfl
  | cons y ys ih =>
    simp only [selectPass]
    split
    · simp [ih]
    · simp [ih]

/-- Outer loop of the exchange sort (auto_trader.go:1026-1032).  The Go
loop runs the index `i` over the array; here each outer iteration fixes the
head via `selectPass` and recurses on the tail.  `fuel` is the number of
outer iterations still allowed; `sortDecisionsByPriority` supplies the list
length, which is exactly enough, so the `0` fallback is never reached for a
nonempty list. -/
def sortLoop : ℕ → List Decision → List Decision
  | _, [] => []
  | 0, l => l
  | fuel + 1, x :: xs =>
    let p := selectPass x xs
    p.1 :: sortLoop fuel p.2

/-- `sortDecisionsByPriority` (auto_trader.go:1002-1035). -/
def sortDecisionsByPriority (decisions : List Decision) : List Decision :=
  if decisions.length ≤ 1 then decisions
  else sortLoop decisions.length decisions

theorem selectPass_perm (x : Decision) (xs : List Decision) :
    ((selectPass x xs).1 :: (selectPass x xs).2).Perm (x :: xs) := by
  induction xs generalizing x with
  | nil => simp [selectPass]
  | cons y ys ih =>
    simp only [selectPass]
    split
    · exact (List.Perm.swap x (selectPass y ys).1 (selectPass y ys).2).trans
        ((ih y).cons x)
    · refine (List.Perm.swap y (selectPass x ys).1 (selectPass x ys).2).trans
        (((ih x).cons y).trans (List.Perm.swap x y ys))

theorem selectPass_fst_min (x : Decision) (xs : List Decision) :
    getActionPriority (selectPass x xs).1.Action ≤ getActionPriority x.Action ∧
    ∀ d ∈ xs, getActionPriority (selectPass x xs).1.Action ≤ getActionPriority d.Action := by
  induction xs generalizing x with
  | nil => simp [selectPass]
  | cons y ys ih =>
    simp only [selectPass]
    split
    · rename_i hswap
      refine ⟨le_of_lt (lt_of_le_of_lt (ih y).1 hswap), ?_⟩
      intro d hd
      rcases List.mem_cons.mp hd with h | h
      · rw [h]; exact (ih y).1
      · exact (ih y).2 d h
    · rename_i hns
      refine ⟨(ih x).1, ?_⟩
      intro d hd
      rcases List.mem_cons.mp hd with h | h
      · rw [h]; exact le_trans (ih x).1 (le_of_not_lt hns)
      · exact (ih x).2 d h

theorem selectPass_fst_min_all (x : Decision) (xs : List Decision) :
    ∀ d ∈ (selectPass x xs).1 :: (selectPass x xs).2,
      getActionPriority (selectPass x xs).1.Action ≤ getActionPriority d.Action := by
  intro d hd
  have hmem : d ∈ x :: xs := (selectPass_perm x xs).mem_iff.mp hd
  rcases List.mem_cons.mp hmem with h | h
  · exact h ▸ (selectPass_fst_min x xs).1
  · exact (selectPass_fst_min x xs).2 d h

theorem sortLoop_perm (fuel : ℕ) (l : List Decision) (hl : l.length ≤ fuel) :
    (sortLoop fuel l).Perm l := by
  induction fuel generalizing l with
  | zero =>
    interval_cases hlen : l.length
    · simp [List.length_eq_zero.mp hlen, sortLoop]
  | succ f ih =>
    cases l with
    | nil => simp [sortLoop]
    | cons x xs =>
      simp only [sortLoop]
      have hrest : (selectPass x xs).2.length ≤ f := by
        rw [selectPass_snd_length]
        simp only [List.length_cons] at hl
        omega
      exact ((ih _ hrest).cons _).trans (selectPass_perm x xs)

theorem sortLoop_pairwise (fuel : ℕ) (l : List Decision) (hl : l.length ≤ fuel) :
    (sortLoop fuel l).Pairwise
      (fun a b => getActionPriority a.Action ≤ getActionPriority b.Action) := by
  induction fuel generalizing l with
  | zero =>
    interval_cases hlen : l.length
    · simp [List.length_eq_zero.mp hlen, sortLoop]
  | succ f ih =>
    cases l with
    | nil => simp [sortLoop]
    | cons x xs =>
      simp only [sortLoop]
      have hrest : (selectPass x xs).2.length ≤ f := by
        rw [selectPass_snd_length]
        simp only [List.length_cons] at hl
        omega
      refine List.Pairwise.cons ?_ (ih _ hrest)
      intro d hd
      have hd2 : d ∈ (selectPass x xs).2 := (sortLoop_perm f _ hrest).mem_iff.mp hd
      exact selectPass_fst_min_all x xs d (List.mem_cons_of_mem _ hd2)

theorem selectPass_of_sorted (x : Decision) (xs : List Decision)
    (h : (x :: xs).Pairwise
      (fun a b => getActionPriority a.Action ≤ getActionPriority b.Action)) :
    selectPass x xs = (x, xs) := by
  induction xs generalizing x with
  | nil => rfl
  | cons y ys ih =>
    have hxy : getActionPriority x.Action ≤ getActionPriority y.Action :=
      (List.pairwise_cons.mp h).1 y (List.mem_cons_self y ys)
    have hsorted : (x :: ys).Pairwise
        (fun a b => getActionPriority a.Action ≤ getActionPriority b.Action) := by
      rcases List.pairwise_cons.mp h with ⟨hx, hyys⟩
      refine List.pairwise_cons.mpr ⟨?_, (List.pairwise_cons.mp hyys).2⟩
      intro d hd
      exact hx d (List.mem_cons_of_mem _ hd)
    simp only [selectPass]
    rw [if_neg (not_lt.mpr hxy), ih x hsorted]

theorem sortLoop_of_sorted (fuel : ℕ) (l : List Decision)
    (h : l.Pairwise (fun a b => getActionPriority a.Action ≤ getActionPriority b.Action)) :
    sortLoop fuel l = l := by
  induction fuel generalizing l with
  | zero => cases l <;> rfl
  | succ f ih =>
    cases l with
    | nil => rfl
    | cons x xs =>
      simp only [sortLoop, selectPass_of_sorted x xs h]
      exact congrArg (x :: ·) (ih xs (List.pairwise_cons.mp h).2)

/-- C1: `sortDecisionsByPriority` returns a permutation of the input ordered
by priority class — every `close_*` (priority 1) before every `open_*`
(priority 2) before every `hold`/`wait` (priority 3), unknown actions
(priority 999) last; an already priority-ordered batch is returned
unchanged; and the batch `[open_long BTC, close_short BTC, hold ETH]` sorts
to `[close_short BTC, open_long BTC, hold ETH]`. -/
theorem c1_sortDecisions_priority_order (l : List Decision) :
    (sortDecisionsByPriority l).Perm l ∧
    (sortDecisionsByPriority l).Pairwise
      (fun a b => getActionPriority a.Action ≤ getActionPriority b.Action) ∧
    (l.Pairwise (fun a b => getActionPriority a.Action ≤ getActionPriority b.Action) →
      sortDecisionsByPriority l = l) ∧
    sortDecisionsByPriority
        [⟨"BTCUSDT", "open_long"⟩, ⟨"BTCUSDT", "close_short"⟩, ⟨"ETHUSDT", "hold"⟩] =
      [⟨"BTCUSDT", "close_short"⟩, ⟨"BTCUSDT", "open_long"⟩, ⟨"ETHUSDT", "hold"⟩] := by
  refine ⟨?_, ?_, ?_, by decide⟩
  · unfold sortDecisionsByPriority
    split
    · exact List.Perm.refl l
    · exact sortLoop_perm l.length l le_rfl
  · unfold sortDecisionsByPriority
    split
    · rename_i hlen
      match l, hlen with
      | [], _ => simp
      | [d], _ => simp
    · exact sortLoop_pairwise l.length l le_rfl
  · intro hsorted
    unfold sortDecisionsByPriority
    split
    · rfl
    · exact sortLoop_of_sorted l.length l hsorted

theorem c1_witness :
    sortDecisionsByPriority [⟨"BTCUSDT", "close_long"⟩, ⟨"ETHUSDT", "open_long"⟩] =
      [⟨"BTCUSDT", "close_long"⟩, ⟨"ETHUSDT", "open_long"⟩] :=
  (c1_sortDecisions_priority_order _).2.2.1 (by decide)

/-- C2 counterexample: the exchange sort is not stable.  The two `open_long`
decisions (symbols X and Y, same priority class) enter in the order X, Y and
leave in the order Y, X: when `close_long Z` is swapped to the front, the
old head `open_long X` lands behind `open_long Y`. -/
theorem c2_counterexample_not_stable :
    sortDecisionsByPriority
        [⟨"XUSDT", "open_long"⟩, ⟨"YUSDT", "open_long"⟩, ⟨"ZUSDT", "close_long"⟩] =
      [⟨"ZUSDT", "close_long"⟩, ⟨"YUSDT", "open_long"⟩, ⟨"XUSDT", "open_long"⟩] := by
  decide

theorem prio_ge_one (a : String) : 1 ≤ getActionPriority a := by
  unfold getActionPriority
  split_ifs <;> norm_num

theorem prio_eq_one_iff (a : String) :
    getActionPriority a = 1 ↔ (a = "close_long" ∨ a = "close_short") := by
  unfold getActionPriority
  split_ifs with h1 h2 h3
  · exact iff_of_true rfl h1
  · exact iff_of_false (by norm_num) h1
  · exact iff_of_false (by norm_num) h1
  · exact iff_of_false (by norm_num) h1

theorem selectPass_filter_close (x : Decision) (xs : List Decision) :
    ((selectPass x xs).1 :: (selectPass x xs).2).filter
        (fun d => getActionPriority d.Action == 1) =
      (x :: xs).filter (fun d => getActionPriority d.Action == 1) := by
  induction xs generalizing x with
  | nil => rfl
  | cons y ys ih =>
    simp only [selectPass]
    split
    · rename_i hswap
      -- swap: the displaced head x has priority > prio y ≥ 1, so x is not a close
      have hx : (getActionPriority x.Action == 1) = false := by
        have h2 : 2 ≤ getActionPriority x.Action :=
          lt_of_le_of_lt (prio_ge_one y.Action) hswap
        simp only [beq_eq_false_iff_ne, ne_eq]
        omega
      have := ih y
      simp only [List.filter_cons, hx] at this ⊢
      simpa using this
    · rename_i hns
      have hxy : getActionPriority x.Action ≤ getActionPriority y.Action := le_of_not_lt hns
      by_cases hy : (getActionPriority y.Action == 1) = true
      · -- y is a close; then x and the running minimum are closes too
        have hy1 : getActionPriority y.Action = 1 := by simpa using hy
        have hx1 : getActionPriority x.Action = 1 :=
          le_antisymm (hy1 ▸ hxy) (prio_ge_one x.Action)
        have hm1 : getActionPriority (selectPass x ys).1.Action = 1 :=
          le_antisymm (hx1 ▸ (selectPass_fst_min x ys).1)
            (prio_ge_one (selectPass x ys).1.Action)
        have := ih x
        simp only [List.filter_cons, hm1, hx1, beq_self_eq_true, if_true] at this
        obtain ⟨hmx, hrest⟩ := List.cons.injEq _ _ _ _ ▸ this
        simp only [List.filter_cons, hm1, hy1, hx1, beq_self_eq_true, if_true, hmx, hrest]
      · have hyf : (getActionPriority y.Action == 1) = false := by
          simpa using hy
        have := ih x
        simp only [List.filter_cons, hyf] at this ⊢
        simpa using this

theorem sortLoop_filter_close (fuel : ℕ) (l : List Decision) (hl : l.length ≤ fuel) :
    (sortLoop fuel l).filter (fun d => getActionPriority d.Action == 1) =
      l.filter (fun d => getActionPriority d.Action == 1) := by
  induction fuel generalizing l with
  | zero =>
    have : l = [] := List.length_eq_zero.mp (Nat.le_zero.mp hl)
    subst this; rfl
  | succ f ih =>
    cases l with
    | nil => rfl
    | cons x xs =>
      simp only [sortLoop]
      have hrest : (selectPass x xs).2.length ≤ f := by
        rw [selectPass_snd_length]
        simp only [List.length_cons] at hl
        omega
      have hih := ih _ hrest
      have hsel := selectPass_filter_close x xs
      simp only [List.filter_cons] at hsel ⊢
      by_cases hm : (getActionPriority (selectPass x xs).1.Action == 1) = true
      · simp only [hm, if_true] at hsel ⊢
        rw [hih]; exact hsel
      · simp only [Bool.not_eq_true] at hm
        simp only [hm, Bool.false_eq_true, if_false] at hsel ⊢
        rw [hih]; exact hsel

/-- C2 amended: `sortDecisionsByPriority` is stable only for the `close_*`
class (priority 1, the least priority value): close decisions keep their
input order, while decisions of the other classes may be reordered (see
`c2_counterexample_not_stable`). -/
theorem c2_close_class_stable (l : List Decision) :
    (sortDecisionsByPriority l).filter (fun d => getActionPriority d.Action == 1) =
      l.filter (fun d => getActionPriority d.Action == 1) ∧
    ∀ a : String, (getActionPriority a = 1 ↔ (a = "close_long" ∨ a = "close_short")) := by
  refine ⟨?_, prio_eq_one_iff⟩
  unfold sortDecisionsByPriority
  split
  · rfl
  · exact sortLoop_filter_close l.length l le_rfl

/-! ### PrecisionRegistry rounding (`aster_trader.go`)

`getPrecision` performs a network fetch and caches the parsed
`SymbolPrecision`; the formatters below take the resolved precision record
as an explicit argument. -/

/-- Go `math.Round`: round to nearest, halves away from zero. -/
def mathRound (x : ℚ) : ℤ :=
  if x < 0 then -⌊-x + 1/2⌋ else ⌊x + 1/2⌋

/-- Go `int(x)` / `int64(x)` conversion: truncation toward zero. -/
def truncToInt (x : ℚ) : ℤ :=
  if x < 0 then ⌈x⌉ else ⌊x⌋

/-- `SymbolPrecision` (aster_trader.go:42-47). -/
structure SymbolPrecision where
  PricePrecision : ℤ
  QuantityPrecision : ℤ
  TickSize : ℚ
  StepSize : ℚ
deriving DecidableEq

/-- `roundToTickSize` (aster_trader.go:148-158). -/
def roundToTickSize (value tickSize : ℚ) : ℚ :=
  if tickSize ≤ 0 then value
  else
    -- steps := value / tickSize; roundedSteps := math.Round(steps)
    (mathRound (value / tickSize) : ℚ) * tickSize

/-- Go `math.Pow10`. -/
def pow10 (n : ℤ) : ℚ := (10 : ℚ) ^ n

/-- `formatPrice` (aster_trader.go:161-175), with the fetched precision
passed explicitly. -/
def formatPrice (prec : SymbolPrecision) (price : ℚ) : ℚ :=
  if 0 < prec.TickSize then roundToTickSize price prec.TickSize
  else (mathRound (price * pow10 prec.PricePrecision) : ℚ) / pow10 prec.PricePrecision

/-- `formatQuantity` (aster_trader.go:178-192). -/
def formatQuantity (prec : SymbolPrecision) (quantity : ℚ) : ℚ :=
  if 0 < prec.StepSize then roundToTickSize quantity prec.StepSize
  else (mathRound (quantity * pow10 prec.QuantityPrecision) : ℚ) / pow10 prec.QuantityPrecision

/-- C3: for every value and every positive tick, `roundToTickSize` equals
`round(v/tick)*tick` (round-half-away-from-zero), hence the result is an
exact integer multiple of the tick; and `roundToTickSize 100.237 0.01`
equals `100.24`. -/
theorem c3_roundToTickSize_multiple (v tick : ℚ) (htick : 0 < tick) :
    roundToTickSize v tick = (mathRound (v / tick) : ℚ) * tick ∧
    (∃ k : ℤ, roundToTickSize v tick = (k : ℚ) * tick) ∧
    roundToTickSize (100237 / 1000) (1 / 100) = 10024 / 100 := by
  refine ⟨?_, ?_, by norm_num [roundToTickSize, mathRound]⟩
  · unfold roundToTickSize
    rw [if_neg (not_le.mpr htick)]
  · refine ⟨mathRound (v / tick), ?_⟩
    unfold roundToTickSize
    rw [if_neg (not_le.mpr htick)]

theorem c3_witness :
    roundToTickSize (100237 / 1000) (1 / 100) = 10024 / 100 :=
  (c3_roundToTickSize_multiple 0 1 (by norm_num)).2.2

/-- C10: `roundToTickSize` is total and acts as the identity whenever the
tick is not strictly positive (the guard at aster_trader.go:149-151 returns
before any division), and the price/quantity formatters fall back to
decimal-precision rounding exactly when the cached tick/step size is not
strictly positive. -/
theorem c10_roundToTickSize_total (v : ℚ) (prec : SymbolPrecision) :
    (prec.TickSize ≤ 0 → roundToTickSize v prec.TickSize = v) ∧
    (0 < prec.TickSize → formatPrice prec v = roundToTickSize v prec.TickSize) ∧
    (prec.TickSize ≤ 0 →
      formatPrice prec v =
        (mathRound (v * pow10 prec.PricePrecision) : ℚ) / pow10 prec.PricePrecision) ∧
    (0 < prec.StepSize → formatQuantity prec v = roundToTickSize v prec.StepSize) ∧
    (prec.StepSize ≤ 0 →
      formatQuantity prec v =
        (mathRound (v * pow10 prec.QuantityPrecision) : ℚ) / pow10 prec.QuantityPrecision) := by
  refine ⟨?_, ?_, ?_, ?_, ?_⟩
  · intro h; unfold roundToTickSize; rw [if_pos h]
  · intro h; unfold formatPrice; rw [if_pos h]
  · intro h; unfold formatPrice; rw [if_neg (not_lt.mpr h)]
  · intro h; unfold formatQuantity; rw [if_pos h]
  · intro h; unfold formatQuantity; rw [if_neg (not_lt.mpr h)]

theorem c10_witness :
    roundToTickSize (5 / 2) 0 = 5 / 2 ∧
    formatPrice ⟨2, 3, 0, 0⟩ (5 / 2) = (mathRound ((5 / 2) * pow10 2) : ℚ) / pow10 2 :=
  ⟨(c10_roundToTickSize_total (5 / 2) ⟨2, 3, 0, 0⟩).1 le_rfl,
   (c10_roundToTickSize_total (5 / 2) ⟨2, 3, 0, 0⟩).2.2.1 le_rfl⟩

/-! ### Significant-figure price rounding (`auto_trader.go`, `roundPriceToSigfigs`)

The two Go `for` loops normalize `magnitude` into `[1, 10)` while scaling
`multiplier` by the same power of ten.  They are translated as well-founded
recursions; the second loop's guard carries the extra conjunct `0 < m`,
which always holds at the call site (`magnitude = |price|`, `price ≠ 0`)
and without which the Go loop would not terminate either. -/

/-- First normalization loop (auto_trader.go:1690-1693):
`for magnitude >= 10 { magnitude /= 10; multiplier /= 10 }`. -/
def normLoop1 (m mult : ℚ) : ℚ × ℚ :=
  if h : 10 ≤ m then normLoop1 (m / 10) (mult / 10)
  else (m, mult)
termination_by (⌊m⌋).natAbs
decreasing_by
  have hfl : (⌊m / 10⌋ : ℚ) < (⌊m⌋ : ℚ) - 8 := by
    have ha := Int.floor_le (m / 10)
    have hb := Int.lt_floor_add_one m
    linarith
  have h2 : ⌊m / 10⌋ < ⌊m⌋ - 8 := by exact_mod_cast hfl
  have h3 : (1 : ℤ) ≤ ⌊m / 10⌋ := Int.le_floor.mpr (by push_cast; linarith)
  omega

/-- Second normalization loop (auto_trader.go:1694-1697):
`for magnitude < 1 { magnitude *= 10; multiplier *= 10 }`. -/
def normLoop2 (m mult : ℚ) : ℚ × ℚ :=
  if h : 0 < m ∧ m < 1 then normLoop2 (m * 10) (mult * 10)
  else (m, mult)
termination_by (⌈m⁻¹⌉).natAbs
decreasing_by
  obtain ⟨hm, hm1⟩ := h
  have hinv : (1 : ℚ) < m⁻¹ := by
    nlinarith [mul_inv_cancel₀ (ne_of_gt hm)]
  have hc2 : (2 : ℤ) ≤ ⌈m⁻¹⌉ := by
    have : (1 : ℤ) < ⌈m⁻¹⌉ := Int.lt_ceil.mpr (by exact_mod_cast hinv)
    omega
  have hle : ⌈(m * 10)⁻¹⌉ ≤ ⌈m⁻¹⌉ - 1 := by
    rw [Int.ceil_le]
    have hcle := Int.le_ceil m⁻¹
    have hr : (m * 10)⁻¹ = m⁻¹ / 10 := by
      rw [mul_inv]; ring
    rw [hr]
    have hcq : (2 : ℚ) ≤ (⌈m⁻¹⌉ : ℚ) := by exact_mod_cast hc2
    push_cast
    linarith
  have hpos : 0 < ⌈(m * 10)⁻¹⌉ := Int.ceil_pos.mpr (by positivity)
  omega

theorem normLoop1_of_lt (m mult : ℚ) (h : m < 10) : normLoop1 m mult = (m, mult) := by
  rw [normLoop1, dif_neg (not_le.mpr h)]

theorem normLoop2_of_ge (m mult : ℚ) (h : 1 ≤ m) : normLoop2 m mult = (m, mult) := by
  rw [normLoop2, dif_neg]
  rintro ⟨-, h1⟩
  exact absurd h (not_le.mpr h1)

theorem normLoop1_spec (m mult : ℚ) (hm : 0 < m) :
    (normLoop1 m mult).1 * mult = m * (normLoop1 m mult).2 ∧
    0 < (normLoop1 m mult).1 ∧ (normLoop1 m mult).1 < 10 ∧
    (1 ≤ m → 1 ≤ (normLoop1 m mult).1) ∧
    (0 < mult → 0 < (normLoop1 m mult).2) := by
  induction m, mult using normLoop1.induct with
  | case1 m mult h ih =>
    rw [normLoop1, dif_pos h]
    have hm10 : (0 : ℚ) < m / 10 := by positivity
    obtain ⟨hr, hp, hlt, hge, hmult⟩ := ih hm10
    refine ⟨?_, hp, hlt, fun _ => hge (by linarith), fun hmu => hmult (by positivity)⟩
    field_simp at hr ⊢
    linarith [hr]
  | case2 m mult h =>
    rw [normLoop1, dif_neg h]
    exact ⟨rfl, hm, not_le.mp h, fun h1 => h1, fun h2 => h2⟩

theorem normLoop2_spec (m mult : ℚ) (hm : 0 < m) (hlt : m < 10) :
    (normLoop2 m mult).1 * mult = m * (normLoop2 m mult).2 ∧
    1 ≤ (normLoop2 m mult).1 ∧ (normLoop2 m mult).1 < 10 ∧
    (0 < mult → 0 < (normLoop2 m mult).2) := by
  induction m, mult using normLoop2.induct with
  | case1 m mult h ih =>
    rw [normLoop2, dif_pos h]
    obtain ⟨hm0, hm1⟩ := h
    have h10 : (0 : ℚ) < m * 10 := by positivity
    have h10b : m * 10 < 10 := by linarith
    obtain ⟨hr, hge, hlt2, hmult⟩ := ih h10 h10b
    refine ⟨?_, hge, hlt2, fun hmu => hmult (by positivity)⟩
    linarith [hr]
  | case2 m mult h =>
    rw [normLoop2, dif_neg h]
    have hge : 1 ≤ m := by
      by_contra hc
      exact h ⟨hm, not_le.mp hc⟩
    exact ⟨rfl, hge, hlt, fun h2 => h2⟩

/-- `absFloat` (auto_trader.go:1720-1724), also the sign-stripping block at
auto_trader.go:1681-1686. -/
def goAbs (x : ℚ) : ℚ := if x < 0 then -x else x

/-- `roundPriceToSigfigs` (auto_trader.go:1673-1707) with `sigfigs = 5`:
normalize the magnitude into `[1,10)`, scale the multiplier by `10^(5-1)`,
and round via Go `int(x + 0.5)` (truncation toward zero). -/
def roundPriceToSigfigs (price : ℚ) : ℚ :=
  if price = 0 then 0
  else
    let n1 := normLoop1 (goAbs price) 1
    let n2 := normLoop2 n1.1 n1.2
    let multiplier := n2.2 * 10 ^ (4 : ℕ)
    (truncToInt (price * multiplier + 1/2) : ℚ) / multiplier

/-- The scale factor the two normalization loops produce for a magnitude
`x`: the `multiplier` value of `roundPriceToSigfigs` before the final
`sigfigs-1` scaling. -/
def mantissaScale (x : ℚ) : ℚ :=
  (normLoop2 (normLoop1 x 1).1 (normLoop1 x 1).2).2

theorem mantissaScale_spec (x : ℚ) (hx : 0 < x) :
    0 < mantissaScale x ∧ 1 ≤ x * mantissaScale x ∧ x * mantissaScale x < 10 := by
  obtain ⟨hr1, hp1, hlt1, _, hmu1⟩ := normLoop1_spec x 1 hx
  have hmul1 : 0 < (normLoop1 x 1).2 := hmu1 one_pos
  obtain ⟨hr2, hge2, hlt2, hmu2⟩ :=
    normLoop2_spec (normLoop1 x 1).1 (normLoop1 x 1).2 hp1 hlt1
  have hms : 0 < mantissaScale x := hmu2 hmul1
  have hne : (normLoop1 x 1).2 ≠ 0 := ne_of_gt hmul1
  rw [mul_one] at hr1
  have hcancel : (normLoop2 (normLoop1 x 1).1 (normLoop1 x 1).2).1 * (normLoop1 x 1).2 =
      x * (normLoop2 (normLoop1 x 1).1 (normLoop1 x 1).2).2 * (normLoop1 x 1).2 := by
    rw [hr2, hr1]; ring
  have hkey : x * mantissaScale x =
      (normLoop2 (normLoop1 x 1).1 (normLoop1 x 1).2).1 := by
    unfold mantissaScale
    exact (mul_right_cancel₀ hne hcancel).symm
  exact ⟨hms, hkey ▸ hge2, hkey ▸ hlt2⟩

theorem roundPriceToSigfigs_pos_eq (price : ℚ) (hpos : 0 < price) :
    roundPriceToSigfigs price =
      (truncToInt (price * (mantissaScale price * 10 ^ (4 : ℕ)) + 1/2) : ℚ) /
        (mantissaScale price * 10 ^ (4 : ℕ)) := by
  unfold roundPriceToSigfigs mantissaScale goAbs
  rw [if_neg (ne_of_gt hpos), if_neg (not_lt.mpr (le_of_lt hpos))]

/-- C8 amended: for every price `p > 0` whose rounded mantissa does not
overflow past `10^5` (i.e. the mantissa does not round up into the next
decade), `roundPriceToSigfigs p` is positive, lies in the same decade as
`p` (both `p` and the result have mantissa `· * mantissaScale p` in
`[1,10)`), and equals `k / (mantissaScale p · 10^4)` for an integer
mantissa `k ∈ [10^4, 10^5)` — i.e. at most five significant digits.  The
original claim fails for negative prices (see
`c8_counterexample_negative_price`) because Go `int(x+0.5)` truncates
toward zero, and at the decade boundary where the mantissa rounds to
`10^5`. -/
theorem c8_sigfigs_amended (price : ℚ) (hpos : 0 < price)
    (hnov : truncToInt (price * (mantissaScale price * 10 ^ (4 : ℕ)) + 1/2) < 10 ^ 5) :
    0 < roundPriceToSigfigs price ∧
    (1 ≤ price * mantissaScale price ∧ price * mantissaScale price < 10) ∧
    (1 ≤ roundPriceToSigfigs price * mantissaScale price ∧
      roundPriceToSigfigs price * mantissaScale price < 10) ∧
    ∃ k : ℤ, 10 ^ 4 ≤ k ∧ k < 10 ^ 5 ∧
      roundPriceToSigfigs price = (k : ℚ) / (mantissaScale price * 10 ^ (4 : ℕ)) := by
  obtain ⟨hms, hge, hlt⟩ := mantissaScale_spec price hpos
  have hne : mantissaScale price ≠ 0 := ne_of_gt hms
  have hpow : (10 : ℚ) ^ (4 : ℕ) = 10000 := by norm_num
  have hx4 : (10000 : ℚ) ≤ price * (mantissaScale price * 10 ^ (4 : ℕ)) := by
    rw [hpow, ← mul_assoc]
    nlinarith [hge]
  have hx0 : ¬ (price * (mantissaScale price * 10 ^ (4 : ℕ)) + 1/2 < 0) := by
    push_neg; linarith
  have htr : truncToInt (price * (mantissaScale price * 10 ^ (4 : ℕ)) + 1/2) =
      ⌊price * (mantissaScale price * 10 ^ (4 : ℕ)) + 1/2⌋ := by
    unfold truncToInt; rw [if_neg hx0]
  have hk1 : (10000 : ℤ) ≤ ⌊price * (mantissaScale price * 10 ^ (4 : ℕ)) + 1/2⌋ :=
    Int.le_floor.mpr (by push_cast; linarith)
  rw [htr] at hnov
  have hk2 : ⌊price * (mantissaScale price * 10 ^ (4 : ℕ)) + 1/2⌋ < 100000 := by
    have h10 : (10 : ℤ) ^ 5 = 100000 := by norm_num
    exact h10 ▸ hnov
  have hres : roundPriceToSigfigs price =
      ((⌊price * (mantissaScale price * 10 ^ (4 : ℕ)) + 1/2⌋ : ℤ) : ℚ) /
        (mantissaScale price * 10 ^ (4 : ℕ)) := by
    rw [roundPriceToSigfigs_pos_eq price hpos, htr]
  have hMpos : (0 : ℚ) < mantissaScale price * 10 ^ (4 : ℕ) :=
    mul_pos hms (by positivity)
  have hkQ : (10000 : ℚ) ≤ ((⌊price * (mantissaScale price * 10 ^ (4 : ℕ)) + 1/2⌋ : ℤ) : ℚ) := by
    exact_mod_cast hk1
  have hkQ2 : ((⌊price * (mantissaScale price * 10 ^ (4 : ℕ)) + 1/2⌋ : ℤ) : ℚ) < 100000 := by
    exact_mod_cast hk2
  have hrs : roundPriceToSigfigs price * mantissaScale price =
      ((⌊price * (mantissaScale price * 10 ^ (4 : ℕ)) + 1/2⌋ : ℤ) : ℚ) / 10000 := by
    rw [hres, hpow]
    field_simp
    ring
  refine ⟨?_, ⟨hge, hlt⟩, ⟨?_, ?_⟩, ?_⟩
  · rw [hres]
    exact div_pos (by linarith) hMpos
  · rw [hrs, le_div_iff (by norm_num : (0 : ℚ) < 10000)]
    linarith
  · rw [hrs, div_lt_iff (by norm_num : (0 : ℚ) < 10000)]
    linarith
  · refine ⟨⌊price * (mantissaScale price * 10 ^ (4 : ℕ)) + 1/2⌋, ?_, ?_, hres⟩
    · have : (10 : ℤ) ^ 4 = 10000 := by norm_num
      omega
    · have : (10 : ℤ) ^ 5 = 100000 := by norm_num
      omega

/-- C8 counterexample: `roundPriceToSigfigs` does not preserve the order
of magnitude of a negative price.  The input `-1.00004` has magnitude in
`[1, 10)` but the result `-0.9999` has magnitude below `1` (and only four
significant digits): `int(x+0.5)` truncates `-10000.4 + 0.5 = -9999.9`
toward zero, yielding mantissa `-9999` instead of five digits. -/
theorem c8_counterexample_negative_price :
    roundPriceToSigfigs (-(25001 / 25000)) = -(9999 / 10000) ∧
    ((-(25001 / 25000) : ℚ) ≤ -1) ∧ (-10 < (-(25001 / 25000) : ℚ)) ∧
    (-1 < (-(9999 / 10000) : ℚ)) ∧ ((-(9999 / 10000) : ℚ) < 0) := by
  refine ⟨?_, by norm_num, by norm_num, by norm_num, by norm_num⟩
  unfold roundPriceToSigfigs
  rw [if_neg (by norm_num : ¬ (-(25001 / 25000) : ℚ) = 0)]
  rw [show goAbs (-(25001 / 25000) : ℚ) = 25001 / 25000 by norm_num [goAbs]]
  rw [normLoop1_of_lt (25001 / 25000) 1 (by norm_num)]
  dsimp only
  rw [normLoop2_of_ge (25001 / 25000) 1 (by norm_num)]
  dsimp only
  have htr : truncToInt ((-(25001 / 25000) : ℚ) * (1 * 10 ^ (4 : ℕ)) + 1/2) = -9999 := by
    unfold truncToInt
    rw [if_pos (by norm_num)]
    rw [Int.ceil_eq_iff] <;> norm_num
  rw [htr]
  norm_num

theorem c8_witness :
    0 < roundPriceToSigfigs 2 ∧
    (1 ≤ 2 * mantissaScale 2 ∧ 2 * mantissaScale 2 < 10) ∧
    (1 ≤ roundPriceToSigfigs 2 * mantissaScale 2 ∧
      roundPriceToSigfigs 2 * mantissaScale 2 < 10) ∧
    ∃ k : ℤ, 10 ^ 4 ≤ k ∧ k < 10 ^ 5 ∧
      roundPriceToSigfigs 2 = (k : ℚ) / (mantissaScale 2 * 10 ^ (4 : ℕ)) :=
  c8_sigfigs_amended 2 (by norm_num) (by
    have h1 : mantissaScale 2 = 1 := by
      unfold mantissaScale
      rw [normLoop1_of_lt 2 1 (by norm_num)]
      dsimp only
      rw [normLoop2_of_ge 2 1 (by norm_num)]
    rw [h1]
    unfold truncToInt
    rw [if_neg (by norm_num)]
    have h2 : ⌊(2 * (1 * 10 ^ (4 : ℕ)) + 1/2 : ℚ)⌋ = 20000 := by
      rw [Int.floor_eq_iff] <;> norm_num
    rw [h2]
    norm_num)

/-! ### RetryingTransport (`aster_trader.go`, `request`/`doRequest`/`sign`)

`doRequest` performs the actual HTTP exchange; its outcome for each attempt
(either a body or an error string such as `"HTTP 400: ..."` or a transport
error containing `timeout`/`connection reset`/`EOF`) is supplied by the
environment, together with the real time each attempt consumes.  Time is a
microsecond counter: `genNonce` (aster_trader.go:79-81) returns the current
`UnixMicro` value, and `time.Sleep(attempt × 1s)` advances the counter by
`attempt * 1000000` µs. -/

def listPrefixOf : List Char → List Char → Bool
  | [], _ => true
  | _ :: _, [] => false
  | p :: ps, c :: cs => p == c && listPrefixOf ps cs

def listInfixOf (pat : List Char) : List Char → Bool
  | [] => listPrefixOf pat []
  | c :: cs => listPrefixOf pat (c :: cs) || listInfixOf pat cs

/-- Go `strings.Contains s substr`. -/
def strContains (s pat : String) : Bool := listInfixOf pat.toList s.toList

/-- The retry test at aster_trader.go:350-352. -/
def isTransientErr (e : String) : Bool :=
  strContains e "timeout" || strContains e "connection reset" || strContains e "EOF"

/-- `const maxRetries = 3` (aster_trader.go:326). -/
def maxRetries : ℕ := 3

/-- `sign` (aster_trader.go:264-322) restricted to what the transport
depends on: it extends a fresh copy of the caller's parameter map with
`recvWindow` and the nonce (the timestamp, addresses and the ECDSA
signature are further pure functions of these and are not modelled). -/
def signParams (params : List (String × String)) (nonce : ℕ) : List (String × String) :=
  params ++ [("recvWindow", "50000"), ("nonce", toString nonce)]

structure Env where
  attemptOutcome : ℕ → Except String String
  attemptDuration : ℕ → ℕ
  baseParams : List (String × String)

structure ReqResult where
  result : Except String String
  nonces : List ℕ
  sleeps : List ℕ
  signed : List (List (String × String))

/-- The retry loop of `request` (aster_trader.go:329-364).  Each iteration
regenerates the nonce (the current clock value) and re-signs a fresh copy
of `baseParams`; an attempt failing the transient test, or failing it while
`attempt < maxRetries` does not hold, returns that error immediately; the
post-loop aggregate error (aster_trader.go:364) is only produced when the
loop exhausts its iterations, which — since a retry requires
`attempt < maxRetries` — never happens when started at attempt 1. -/
def requestLoop (env : Env) : ℕ → ℕ → ℕ → String → ReqResult
  | 0, _, _, lastErr =>
    ⟨Except.error ("請求失敗（已重試3次）: " ++ lastErr), [], [], []⟩
  | fuel + 1, attempt, time, _ =>
    let nonce := time
    let sp := signParams env.baseParams nonce
    let time2 := time + env.attemptDuration attempt
    match env.attemptOutcome attempt with
    | Except.ok body => ⟨Except.ok body, [nonce], [], [sp]⟩
    | Except.error e =>
      if isTransientErr e ∧ attempt < maxRetries then
        let rest := requestLoop env fuel (attempt + 1) (time2 + attempt * 1000000) e
        ⟨rest.result, nonce :: rest.nonces, attempt * 1000000 :: rest.sleeps,
          sp :: rest.signed⟩
      else ⟨Except.error e, [nonce], [], [sp]⟩

/-- `request` (aster_trader.go:325-365): the loop `for attempt := 1;
attempt <= maxRetries; attempt++`, started at the clock value `t0`. -/
def request (env : Env) (t0 : ℕ) : ReqResult :=
  requestLoop env maxRetries 1 t0 ""

theorem requestLoop_spec (env : Env) (fuel : ℕ) :
    ∀ (attempt time : ℕ) (lastErr : String), 1 ≤ attempt →
      (∀ n ∈ (requestLoop env fuel attempt time lastErr).nonces, time ≤ n) ∧
      (requestLoop env fuel attempt time lastErr).nonces.Pairwise (· < ·) ∧
      (requestLoop env fuel attempt time lastErr).signed =
        (requestLoop env fuel attempt time lastErr).nonces.map (signParams env.baseParams) ∧
      (requestLoop env fuel attempt time lastErr).nonces.length ≤ fuel := by
  induction fuel with
  | zero => intro attempt time lastErr _; simp [requestLoop]
  | succ f ih =>
    intro attempt time lastErr hatt
    simp only [requestLoop]
    cases hE : env.attemptOutcome attempt with
    | ok body => simp
    | error e =>
      by_cases hretry : isTransientErr e ∧ attempt < maxRetries
      · simp only [if_pos hretry]
        obtain ⟨hbound, hpw, hsig, hlen⟩ :=
          ih (attempt + 1) (time + env.attemptDuration attempt + attempt * 1000000) e
            (le_trans hatt (Nat.le_succ attempt))
        refine ⟨?_, ?_, ?_, ?_⟩
        · intro n hn
          rcases List.mem_cons.mp hn with h | h
          · omega
          · have := hbound n h; omega
        · refine List.Pairwise.cons ?_ hpw
          intro n hn
          have := hbound n hn
          have h1M : 1000000 ≤ attempt * 1000000 := by
            calc 1000000 = 1 * 1000000 := by omega
            _ ≤ attempt * 1000000 := Nat.mul_le_mul_right _ hatt
          omega
        · simp only [List.map_cons, hsig]
        · simpa using Nat.succ_le_succ hlen
      · simp only [if_neg hretry]
        simp

/-- C5: within one logical `request` call, every attempt samples a fresh
nonce from the advancing microsecond clock and signs a fresh copy of the
caller's parameter map; successive nonces are strictly increasing (the
mandatory `attempt × 1s` sleep separates any two signing attempts), so no
nonce is ever reused. -/
theorem c5_request_nonces_strictly_increasing (env : Env) (t0 : ℕ) :
    (request env t0).nonces.Pairwise (· < ·) ∧
    (request env t0).nonces.Pairwise (· ≠ ·) ∧
    (request env t0).signed = (request env t0).nonces.map (signParams env.baseParams) := by
  obtain ⟨-, hpw, hsig, -⟩ :=
    requestLoop_spec env maxRetries 1 t0 "" le_rfl
  exact ⟨hpw, hpw.imp ne_of_lt, hsig⟩

/-- An environment in which every attempt fails with a transport timeout. -/
def envAllTimeout : Env :=
  { attemptOutcome := fun _ => Except.error "timeout"
    attemptDuration := fun _ => 0
    baseParams := [] }

/-- An environment in which every attempt is rejected by the venue with an
HTTP status and body. -/
def envHttp400 : Env :=
  { attemptOutcome := fun _ => Except.error "HTTP 400: bad request"
    attemptDuration := fun _ => 0
    baseParams := [] }

/-- C4: the retry policy of `request`, evaluated.  A venue rejection
(`HTTP 400`) returns immediately after one attempt with no sleep; a
persistent transport timeout is retried with linear backoff (1s then 2s)
for exactly 3 attempts; the attempt count never exceeds 3 for any
environment.  But on exhaustion the error returned is the raw last error
`"timeout"`, not the aggregated `請求失敗（已重試3次）: timeout` the code
builds at aster_trader.go:364 — that line is unreachable, because a
transient failure on the final attempt takes the early
`return nil, err` at aster_trader.go:361. -/
theorem c4_request_retry_policy :
    (request envAllTimeout 0).result = Except.error "timeout" ∧
    (request envAllTimeout 0).result ≠
      Except.error ("請求失敗（已重試3次）: " ++ "timeout") ∧
    (request envAllTimeout 0).nonces.length = 3 ∧
    (request envAllTimeout 0).sleeps = [1000000, 2000000] ∧
    (request envHttp400 0).result = Except.error "HTTP 400: bad request" ∧
    (request envHttp400 0).nonces.length = 1 ∧
    (request envHttp400 0).sleeps = [] ∧
    (∀ (env : Env) (t0 : ℕ), (request env t0).nonces.length ≤ 3) := by
  refine ⟨rfl, ?_, rfl, rfl, rfl, rfl, rfl, ?_⟩
  · rw [show (request envAllTimeout 0).result = Except.error "timeout" from rfl]
    simp only [ne_eq, Except.error.injEq]
    decide
  · intro env t0
    exact (requestLoop_spec env maxRetries 1 t0 "" le_rfl).2.2.2

/-! ### GetPositions normalization (C6)

Each backend parses the venue response and emits one map per nonzero
position.  The numeric fields are modelled post-parsing (the Go code parses
decimal strings with `strconv.ParseFloat`). -/

/-- One parsed entry of `/fapi/v3/positionRisk` (Aster) or of the Binance
position-risk service. -/
structure RawPosition where
  symbol : String
  positionAmt : ℚ
  entryPrice : ℚ
  markPrice : ℚ
  unRealizedProfit : ℚ
  leverage : ℚ
  liquidationPrice : ℚ

/-- The normalized position map every backend returns. -/
structure Position where
  symbol : String
  side : String
  positionAmt : ℚ
  entryPrice : ℚ
  markPrice : ℚ
  unRealizedProfit : ℚ
  leverage : ℚ
  liquidationPrice : ℚ

/-- `AsterTrader.GetPositions` (aster_trader.go:469-521): skip zero
positions; a negative amount means `short` and is negated. -/
def asterGetPositions : List RawPosition → List Position
  | [] => []
  | pos :: rest =>
    if pos.positionAmt = 0 then asterGetPositions rest
    else
      { symbol := pos.symbol
        side := if pos.positionAmt < 0 then "short" else "long"
        positionAmt := if pos.positionAmt < 0 then -pos.positionAmt else pos.positionAmt
        entryPrice := pos.entryPrice
        markPrice := pos.markPrice
        unRealizedProfit := pos.unRealizedProfit
        leverage := pos.leverage
        liquidationPrice := pos.liquidationPrice } :: asterGetPositions rest

/-- `FuturesTrader.GetPositions` (interface.go:131-182): skip zero
positions; the side is derived from the sign but `positionAmt` is stored
as parsed — it stays negative for shorts. -/
def futuresGetPositions : List RawPosition → List Position
  | [] => []
  | pos :: rest =>
    if pos.positionAmt = 0 then futuresGetPositions rest
    else
      { symbol := pos.symbol
        side := if 0 < pos.positionAmt then "long" else "short"
        positionAmt := pos.positionAmt
        entryPrice := pos.entryPrice
        markPrice := pos.markPrice
        unRealizedProfit := pos.unRealizedProfit
        leverage := pos.leverage
        liquidationPrice := pos.liquidationPrice } :: futuresGetPositions rest

/-- One asset position of the Hyperliquid `UserState` response. -/
structure HLRawPosition where
  coin : String
  szi : ℚ
  entryPx : Option ℚ
  liquidationPx : Option ℚ
  positionValue : ℚ
  unrealizedPnl : ℚ
  leverageValue : ℤ

/-- `HyperliquidTrader.GetPositions` (auto_trader.go:1160-1223): skip zero
`szi`; negative `szi` means `short` and is negated; nil price pointers
default to 0; `markPrice = positionValue / |szi|`. -/
def hlGetPositions : List HLRawPosition → List Position
  | [] => []
  | p :: rest =>
    if p.szi = 0 then hlGetPositions rest
    else
      { symbol := p.coin ++ "USDT"
        side := if 0 < p.szi then "long" else "short"
        positionAmt := if 0 < p.szi then p.szi else -p.szi
        entryPrice := p.entryPx.getD 0
        markPrice := p.positionValue / goAbs p.szi
        unRealizedProfit := p.unrealizedPnl
        leverage := (p.leverageValue : ℚ)
        liquidationPrice := p.liquidationPx.getD 0 } :: hlGetPositions rest

theorem asterGetPositions_normalized (raws : List RawPosition) :
    ∀ p ∈ asterGetPositions raws,
      (p.side = "long" ∨ p.side = "short") ∧ 0 < p.positionAmt := by
  induction raws with
  | nil => intro p hp; simp [asterGetPositions] at hp
  | cons r rest ih =>
    intro p hp
    by_cases h0 : r.positionAmt = 0
    · rw [asterGetPositions, if_pos h0] at hp
      exact ih p hp
    · rw [asterGetPositions, if_neg h0] at hp
      rcases List.mem_cons.mp hp with h | h
      · subst h
        dsimp only
        by_cases hneg : r.positionAmt < 0
        · rw [if_pos hneg, if_pos hneg]
          exact ⟨Or.inr rfl, by linarith⟩
        · rw [if_neg hneg, if_neg hneg]
          exact ⟨Or.inl rfl, lt_of_le_of_ne (not_lt.mp hneg) (Ne.symm h0)⟩
      · exact ih p h

theorem hlGetPositions_normalized (raws : List HLRawPosition) :
    ∀ p ∈ hlGetPositions raws,
      (p.side = "long" ∨ p.side = "short") ∧ 0 < p.positionAmt := by
  induction raws with
  | nil => intro p hp; simp [hlGetPositions] at hp
  | cons r rest ih =>
    intro p hp
    by_cases h0 : r.szi = 0
    · rw [hlGetPositions, if_pos h0] at hp
      exact ih p hp
    · rw [hlGetPositions, if_neg h0] at hp
      rcases List.mem_cons.mp hp with h | h
      · subst h
        dsimp only
        by_cases hpos : 0 < r.szi
        · rw [if_pos hpos, if_pos hpos]
          exact ⟨Or.inl rfl, hpos⟩
        · rw [if_neg hpos, if_neg hpos]
          refine ⟨Or.inr rfl, ?_⟩
          have hlt : r.szi < 0 := lt_of_le_of_ne (not_lt.mp hpos) h0
          linarith
      · exact ih p h

theorem futuresGetPositions_partially_normalized (raws : List RawPosition) :
    ∀ p ∈ futuresGetPositions raws,
      (p.side = "long" ∨ p.side = "short") ∧ p.positionAmt ≠ 0 ∧
      (p.side = "short" ↔ p.positionAmt < 0) := by
  induction raws with
  | nil => intro p hp; simp [futuresGetPositions] at hp
  | cons r rest ih =>
    intro p hp
    by_cases h0 : r.positionAmt = 0
    · rw [futuresGetPositions, if_pos h0] at hp
      exact ih p hp
    · rw [futuresGetPositions, if_neg h0] at hp
      rcases List.mem_cons.mp hp with h | h
      · subst h
        dsimp only
        by_cases hpos : 0 < r.positionAmt
        · rw [if_pos hpos]
          refine ⟨Or.inl rfl, h0, ?_⟩
          constructor
          · intro hls
            exact absurd hls (by decide)
          · intro hlt
            exact absurd hlt (not_lt.mpr hpos.le)
        · rw [if_neg hpos]
          refine ⟨Or.inr rfl, h0, ?_⟩
          exact ⟨fun _ => lt_of_le_of_ne (not_lt.mp hpos) h0, fun _ => rfl⟩
      · exact ih p h

def rawShortBTC : RawPosition :=
  { symbol := "BTCUSDT", positionAmt := -(1/2), entryPrice := 100, markPrice := 100
    unRealizedProfit := 0, leverage := 10, liquidationPrice := 0 }

/-- C6 counterexample: the Binance backend does not normalize
`positionAmt`.  A short position parsed as `positionAmt = -0.5` is
returned with side `"short"` but a negative quantity — the
signed-quantity convention leaks to callers (interface.go:158 stores the
parsed value; its own `CloseShort` at interface.go:412 has to negate it
again). -/
theorem c6_counterexample_binance_signed :
    (futuresGetPositions [rawShortBTC]).map (fun p => (p.side, p.positionAmt)) =
      [("short", -(1/2))] ∧
    ¬ (0 < (-(1/2) : ℚ)) := by
  constructor
  · norm_num [futuresGetPositions, rawShortBTC]
  · norm_num

/-- C6 amended: the Aster and Hyperliquid backends return fully normalized
positions (side is exactly long/short and the quantity is strictly
positive); the Binance backend filters zero positions and normalizes the
side (short iff the parsed amount is negative) but keeps the signed
`positionAmt`. -/
theorem c6_positions_normalized_amended (raws : List RawPosition)
    (hlraws : List HLRawPosition) :
    (∀ p ∈ asterGetPositions raws,
      (p.side = "long" ∨ p.side = "short") ∧ 0 < p.positionAmt) ∧
    (∀ p ∈ hlGetPositions hlraws,
      (p.side = "long" ∨ p.side = "short") ∧ 0 < p.positionAmt) ∧
    (∀ p ∈ futuresGetPositions raws,
      (p.side = "long" ∨ p.side = "short") ∧ p.positionAmt ≠ 0 ∧
      (p.side = "short" ↔ p.positionAmt < 0)) :=
  ⟨asterGetPositions_normalized raws, hlGetPositions_normalized hlraws,
    futuresGetPositions_partially_normalized raws⟩

theorem c6_witness :
    (("short" : String) = "long" ∨ ("short" : String) = "short") ∧
      (0 : ℚ) < 1/2 := by
  have h := (c6_positions_normalized_amended [rawShortBTC] []).1
    { symbol := "BTCUSDT", side := "short", positionAmt := 1/2, entryPrice := 100
      markPrice := 100, unRealizedProfit := 0, leverage := 10, liquidationPrice := 0 }
  refine h ?_
  norm_num [asterGetPositions, rawShortBTC]

/-! ### SetLeverage (C7)

Each `SetLeverage` is modelled as the list of remote leverage-change calls
it issues; the Binance variant also consults the (possibly cached)
positions snapshot for the current leverage. -/

/-- `AsterTrader.SetLeverage` (aster_trader.go:823-831): one unconditional
`POST /fapi/v3/leverage` call. -/
def asterSetLeverageCalls (symbol : String) (leverage : ℤ) :
    List (String × String × ℤ) :=
  [("/fapi/v3/leverage", symbol, leverage)]

/-- `convertSymbolToHyperliquid` (auto_trader.go:1711-1717). -/
def convertSymbolToHyperliquid (symbol : String) : String :=
  if 4 < symbol.length ∧ symbol.toList.drop (symbol.length - 4) = "USDT".toList
  then String.mk (symbol.toList.take (symbol.length - 4))
  else symbol

/-- `HyperliquidTrader.SetLeverage` (auto_trader.go:1226-1238): one
unconditional `UpdateLeverage` SDK call. -/
def hlSetLeverageCalls (symbol : String) (leverage : ℤ) : List (String × ℤ) :=
  [(convertSymbolToHyperliquid symbol, leverage)]

/-- Current leverage lookup in `FuturesTrader.SetLeverage`
(interface.go:186-198): the first cached position matching the symbol,
with Go `int(...)` truncation, else 0. -/
def futuresCurrentLeverage (positions : List Position) (symbol : String) : ℤ :=
  match positions.find? (fun p => p.symbol == symbol) with
  | some p => truncToInt p.leverage
  | none => 0

/-- `FuturesTrader.SetLeverage` (interface.go:185-228) as the list of
remote `ChangeLeverage` calls it issues: skipped iff the cached leverage
already equals the target and is positive (interface.go:201). -/
def futuresSetLeverageCalls (positions : List Position) (symbol : String)
    (leverage : ℤ) : List (String × ℤ) :=
  if futuresCurrentLeverage positions symbol = leverage ∧
      0 < futuresCurrentLeverage positions symbol
  then []
  else [(symbol, leverage)]

/-- C7 counterexample: on the Aster backend, `SetLeverage` has no
idempotence check — calling it twice consecutively with the same target
and no intervening change issues two remote calls, not at most one. -/
theorem c7_counterexample_aster_two_calls :
    (asterSetLeverageCalls "BTCUSDT" 10 ++ asterSetLeverageCalls "BTCUSDT" 10).length = 2 ∧
    ¬ ((asterSetLeverageCalls "BTCUSDT" 10 ++
        asterSetLeverageCalls "BTCUSDT" 10).length ≤ 1) := by
  constructor
  · rfl
  · decide

/-- C7 amended: only the Binance backend skips the remote call, and only
when the cached positions already report the target leverage for the
symbol (and it is positive): under that condition two consecutive calls
against the same snapshot issue zero remote calls, otherwise each call
issues one (two in total); the Aster and Hyperliquid backends always issue
exactly one remote call per invocation. -/
theorem c7_setLeverage_skip_amended (ps : List Position) (s : String) (L : ℤ) :
    (futuresSetLeverageCalls ps s L = [] ↔
      (futuresCurrentLeverage ps s = L ∧ 0 < futuresCurrentLeverage ps s)) ∧
    ((futuresSetLeverageCalls ps s L ++ futuresSetLeverageCalls ps s L).length ≤ 1 ↔
      (futuresCurrentLeverage ps s = L ∧ 0 < futuresCurrentLeverage ps s)) ∧
    (asterSetLeverageCalls s L).length = 1 ∧
    (hlSetLeverageCalls s L).length = 1 := by
  unfold futuresSetLeverageCalls
  by_cases h : futuresCurrentLeverage ps s = L ∧ 0 < futuresCurrentLeverage ps s
  · rw [if_pos h]
    exact ⟨iff_of_true rfl h, iff_of_true (by simp) h, rfl, rfl⟩
  · rw [if_neg h]
    exact ⟨iff_of_false (by simp) h, iff_of_false (by simp) h, rfl, rfl⟩

/-! ### CancelStopOrders (C9) -/

/-- One entry of the `/fapi/v3/openOrders` response (Aster) — the two
fields `CancelStopOrders` reads. -/
structure AsterOpenOrder where
  orderId : ℤ
  otype : String
deriving DecidableEq

/-- The order-type filter at aster_trader.go:975-978. -/
def isStopOrderType (t : String) : Bool :=
  t == "STOP_MARKET" || t == "TAKE_PROFIT_MARKET" || t == "STOP" || t == "TAKE_PROFIT"

/-- `AsterTrader.CancelStopOrders` (aster_trader.go:953-1005): a failed
listing is an error; otherwise one `DELETE /fapi/v3/order` call per
stop/take-profit order.  A failed cancel only skips the counter
(aster_trader.go:987-990) — the function returns success regardless, which
is why the per-order outcomes `cancelOutcome` never reach the result.
Returns (result, cancel calls issued, canceledCount). -/
def asterCancelStopOrders (symbol : String)
    (listing : Except String (List AsterOpenOrder))
    (cancelOutcome : ℤ → Except String Unit) :
    Except String Unit × List (String × ℤ) × ℕ :=
  match listing with
  | Except.error e => (Except.error ("獲取未完成訂單失敗: " ++ e), [], 0)
  | Except.ok orders =>
    let stops := orders.filter (fun o => isStopOrderType o.otype)
    (Except.ok (), stops.map (fun o => (symbol, o.orderId)),
      (stops.filter (fun o => (cancelOutcome o.orderId).isOk)).length)

/-- One entry of the Hyperliquid open-orders response — the fields
`CancelAllOrders` reads, plus the order type it does NOT read. -/
structure HLOrder where
  coin : String
  oid : ℤ
  otype : String
deriving DecidableEq

/-- `HyperliquidTrader.CancelAllOrders` (auto_trader.go:1501-1522): cancel
every open order of the coin; per-order failures are logged only. -/
def hlCancelAllOrders (symbol : String) (openOrders : List HLOrder) :
    Except String Unit × List (String × ℤ) :=
  let coin := convertSymbolToHyperliquid symbol
  (Except.ok (), (openOrders.filter (fun o => o.coin == coin)).map
    (fun o => (coin, o.oid)))

/-- `HyperliquidTrader.CancelStopOrders` (auto_trader.go:1525-1531):
delegates to `CancelAllOrders`. -/
def hlCancelStopOrders (symbol : String) (openOrders : List HLOrder) :
    Except String Unit × List (String × ℤ) :=
  hlCancelAllOrders symbol openOrders

/-- The scenario's mixed open-order list: one resting limit order, one
stop-market, one take-profit-market. -/
def mixedAsterOrders : List AsterOpenOrder :=
  [⟨1, "LIMIT"⟩, ⟨2, "STOP_MARKET"⟩, ⟨3, "TAKE_PROFIT_MARKET"⟩]

def mixedHLOrders : List HLOrder :=
  [⟨"BTC", 1, "LIMIT"⟩, ⟨"BTC", 2, "STOP_MARKET"⟩, ⟨"BTC", 3, "TAKE_PROFIT_MARKET"⟩]

/-- C9 counterexample: on the Hyperliquid backend, `CancelStopOrders` on
the mixed list issues 3 cancel calls, not 2 — it delegates to
`CancelAllOrders`, so the resting limit order (oid 1) is cancelled too. -/
theorem c9_counterexample_hyperliquid_cancels_all :
    (hlCancelStopOrders "BTCUSDT" mixedHLOrders).2 =
      [("BTC", 1), ("BTC", 2), ("BTC", 3)] ∧
    (hlCancelStopOrders "BTCUSDT" mixedHLOrders).2.length ≠ 2 := by
  constructor
  · rfl
  · decide

/-- C9 amended: on the Aster backend, `CancelStopOrders` on the mixed list
issues exactly the 2 cancel calls for the stop-market and
take-profit-market orders, skipping the limit order, and returns success
whatever the individual cancel outcomes are; the Hyperliquid backend also
returns success but cancels all 3 open orders of the symbol, the limit
order included. -/
theorem c9_cancel_stop_orders_amended (cancelOutcome : ℤ → Except String Unit) :
    (asterCancelStopOrders "BTCUSDT" (Except.ok mixedAsterOrders) cancelOutcome).1 =
      Except.ok () ∧
    (asterCancelStopOrders "BTCUSDT" (Except.ok mixedAsterOrders) cancelOutcome).2.1 =
      [("BTCUSDT", 2), ("BTCUSDT", 3)] ∧
    (hlCancelStopOrders "BTCUSDT" mixedHLOrders).1 = Except.ok () ∧
    (hlCancelStopOrders "BTCUSDT" mixedHLOrders).2.length = 3 := by
  exact ⟨rfl, rfl, rfl, rfl⟩
